import Mathlib

/-
Shallow embedding of the WASI host shim of this repository
(src/src/compiler.ts) and of the memoizing fetch cache (the unnamed main
module).  Guest linear memory and file contents are byte lists; JS strings
(paths) are lists of characters; the JS `Record` objects (directory children,
descriptor table, loaded-file heap) are association lists; the mutable
per-file read cursor lives in a heap indexed by file ids, so that two
descriptors registered on the same loaded file share the cursor exactly as
the aliased JS objects do.  A thrown JS exception is an `Except.error`;
out-of-range `DataView` accesses (which throw in JS) are modeled as reads of
0 / dropped writes, and every theorem that depends on a memory access keeps
it in bounds by hypothesis.
-/

namespace TryWatim

abbrev Bytes := List Nat

/-- Error constants from compiler.ts. -/
def NOT_SUPPORTED : Nat := 58
def IS_A_DIRECTORY : Nat := 31
def NO_SUCH_FILE_OR_DIRECTORY : Nat := 44
def STDIN : Nat := 0
def STDOUT : Nat := 1
def STDERR : Nat := 2

/-- JS `path.split('/')` on a list of characters: `""` splits to `[""]`,
a trailing separator yields a trailing empty segment. -/
def splitSlash : List Char → List (List Char)
  | [] => [[]]
  | c :: rest =>
    if c = '/' then [] :: splitSlash rest
    else
      match splitSlash rest with
      | [] => [[c]]
      | s :: ss => (c :: s) :: ss

/-- JS `segments.join('/')`. -/
def joinSlash : List (List Char) → List Char
  | [] => []
  | [s] => s
  | s :: s2 :: ss => s ++ '/' :: joinSlash (s2 :: ss)

mutual
/-- Type `FileSystemNode<T>` of compiler.ts: tag "file" holding a `T`, or tag
"directory" holding name-keyed children. -/
inductive FSNode (T : Type) where
  | file (val : T)
  | directory (children : FSEntries T)
/-- The children record of a directory, as an association list in insertion
order (keys unique by invariant). -/
inductive FSEntries (T : Type) where
  | nil
  | cons (name : List Char) (node : FSNode T) (rest : FSEntries T)
end

/-- First-match lookup in a children record (`fileSystem.children[seg]`). -/
def FSEntries.lookup {T : Type} : FSEntries T → List Char → Option (FSNode T)
  | .nil, _ => none
  | .cons k v rest, name => if k = name then some v else rest.lookup name

/-- A loaded file: the immutable content buffer captured by `createFile`,
plus the mutable read cursor the closure keeps. -/
structure File where
  data : Bytes
  cursor : Nat
  deriving DecidableEq, Repr

/-- One entry of the `openFds` record.  `stdin`/`preopenRoot` have the
not-supported read and write closures, `stdout`/`stderr` write to the output
sink, `file fid` is a reference to the loaded file heap (the object stored by
`openFds[fd] = fileSystem.file`, aliased with the tree leaf). -/
inductive FdEntry where
  | stdin
  | stdout
  | stderr
  | preopenRoot
  | file (fid : Nat)
  deriving DecidableEq, Repr

/-- The mutable state `prepareWasi` closes over: the loaded-file heap (object
identities of the `createFile` results), the `openFds` record and the
`nextFd` counter. -/
structure Sys where
  files : List (Nat × File)
  openFds : List (Nat × FdEntry)
  nextFd : Nat
  deriving DecidableEq, Repr

/-- Descriptors 0..3 installed before any guest code runs. -/
def initialFds : List (Nat × FdEntry) :=
  [(0, .stdin), (1, .stdout), (2, .stderr), (3, .preopenRoot)]

def initSys (heap : List (Nat × File)) : Sys :=
  ⟨heap, initialFds, 4⟩

/-- Lookup `openFds[fd]`. -/
def lookupFd : List (Nat × FdEntry) → Nat → Option FdEntry
  | [], _ => none
  | (k, e) :: rest, fd => if k = fd then some e else lookupFd rest fd

/-- Heap lookup of a loaded file by id. -/
def heapGet : List (Nat × File) → Nat → Option File
  | [], _ => none
  | (k, f) :: rest, fid => if k = fid then some f else heapGet rest fid

/-- Heap update of a loaded file by id (mutation of the aliased object). -/
def heapSet : List (Nat × File) → Nat → File → List (Nat × File)
  | [], _, _ => []
  | (k, f) :: rest, fid, f' =>
    if k = fid then (k, f') :: rest else (k, f) :: heapSet rest fid f'

/-- The id-to-content view of the heap (what survives any run: read cursors
move, contents never change). -/
def heapData (files : List (Nat × File)) : List (Nat × Bytes) :=
  files.map (fun p => (p.1, p.2.data))

/-- The loop of `copy` in compiler.ts: copy byte `i`, stopping as soon as
either buffer would be overrun.  `remaining = len - i` counts the iterations
still to run, so loop exit (`i = len`) is `remaining = 0`, where the source
returns `len = i`. -/
def copyGo (srcBuf : Bytes) (src dst : Nat) (i remaining : Nat)
    (dstBuf : Bytes) : Bytes × Nat :=
  match remaining with
  | 0 => (dstBuf, i)
  | r + 1 =>
    if srcBuf.length ≤ src + i then (dstBuf, i)
    else if dstBuf.length ≤ dst + i then (dstBuf, i)
    else copyGo srcBuf src dst (i + 1) r
      (dstBuf.set (dst + i) (srcBuf.getD (src + i) 0))

/-- Function `copy(srcBuf, dstBuf, src, dst, len)`: returns the new destination buffer
and the count of bytes actually copied. -/
def copy (srcBuf dstBuf : Bytes) (src dst len : Nat) : Bytes × Nat :=
  copyGo srcBuf src dst 0 len dstBuf

/-- Read `DataView.getUint32(p, true)` (little endian). -/
def getUint32 (mem : Bytes) (p : Nat) : Nat :=
  mem.getD p 0 + 256 * mem.getD (p + 1) 0 + 65536 * mem.getD (p + 2) 0 +
    16777216 * mem.getD (p + 3) 0

/-- Write `DataView.setUint32(p, v, true)` (little endian). -/
def setUint32 (mem : Bytes) (p v : Nat) : Bytes :=
  ((((mem.set p (v % 256)).set (p + 1) (v / 256 % 256)).set
    (p + 2) (v / 65536 % 256)).set (p + 3) (v / 16777216 % 256))

/-- The `read` closure made by `createFile`: copy from the content at the
cursor into guest memory, advance the cursor by the bytes actually copied,
return `[read, 0]`. -/
def fileRead (f : File) (mem : Bytes) (ptr len : Nat) :
    File × Bytes × Nat × Nat :=
  let r := copy f.data mem f.cursor ptr len
  (⟨f.data, f.cursor + r.2⟩, r.1, r.2, 0)

/-- Dispatch of `openFds[fd].read`: regular files read through the shared
heap object, every other descriptor has `readNotSupported`. -/
def entryRead (st : Sys) (e : FdEntry) (mem : Bytes) (ptr len : Nat) :
    Sys × Bytes × Nat × Nat :=
  match e with
  | .file fid =>
    match heapGet st.files fid with
    | some f =>
      let r := fileRead f mem ptr len
      (⟨heapSet st.files fid r.1, st.openFds, st.nextFd⟩, r.2.1, r.2.2.1, r.2.2.2)
    | none => (st, mem, 0, NOT_SUPPORTED)
  | _ => (st, mem, 0, NOT_SUPPORTED)

/-- Dispatch of `openFds[fd].write`: stdout/stderr hand the chunk to the
output sink and report its length, everything else is `writeNotSupported`
(loaded files have `write: () => [0, NOT_SUPPORTED]`). -/
def entryWrite (e : FdEntry) (data : Bytes) : Nat × Nat × List (Nat × Bytes) :=
  match e with
  | .stdout => (data.length, 0, [(STDOUT, data)])
  | .stderr => (data.length, 0, [(STDERR, data)])
  | _ => (0, NOT_SUPPORTED, [])

/-- The iovec loop of `fd_read` (`remaining = iovsLen - i` iterations left):
`Sum.inl` is an early errno return, `Sum.inr` the accumulated byte count
after the loop. -/
def fdReadLoop (e : FdEntry) (iovsPtr : Nat) (i remaining acc : Nat) (st : Sys)
    (mem : Bytes) : Sys × Bytes × (Nat ⊕ Nat) :=
  match remaining with
  | 0 => (st, mem, .inr acc)
  | rem + 1 =>
    let ptr := getUint32 mem (iovsPtr + 8 * i)
    let len := getUint32 mem (iovsPtr + 8 * i + 4)
    let r := entryRead st e mem ptr len
    if r.2.2.2 ≠ 0 then (r.1, r.2.1, .inl r.2.2.2)
    else if r.2.2.1 < len then (r.1, r.2.1, .inr (acc + r.2.2.1))
    else fdReadLoop e iovsPtr (i + 1) rem (acc + r.2.2.1) r.1 r.2.1

/-- Syscall `fd_read(fd, iovsPtr, iovsLen, readPtr)`.  A descriptor that is not open
throws (`Except.error`); otherwise the result is the updated state, the
updated guest memory and the WASI errno. -/
def fd_read (st : Sys) (mem : Bytes) (fd iovsPtr iovsLen readPtr : Nat) :
    Except String (Sys × Bytes × Nat) :=
  match lookupFd st.openFds fd with
  | none => .error ("file descriptor " ++ toString fd ++ " is not open")
  | some e =>
    match fdReadLoop e iovsPtr 0 iovsLen 0 st mem with
    | (st', mem', .inl code) => .ok (st', mem', code)
    | (st', mem', .inr read) => .ok (st', setUint32 mem' readPtr read, 0)

/-- The iovec loop of `fd_write` (`remaining = iovsLen - i` iterations
left); the chunk handed to the sink is `memory.buffer.slice(ptr, ptr + len)`
(clamped to the buffer). -/
def fdWriteLoop (e : FdEntry) (iovsPtr : Nat) (i remaining acc : Nat)
    (mem : Bytes) (out : List (Nat × Bytes)) :
    List (Nat × Bytes) × (Nat ⊕ Nat) :=
  match remaining with
  | 0 => (out, .inr acc)
  | rem + 1 =>
    let ptr := getUint32 mem (iovsPtr + 8 * i)
    let len := getUint32 mem (iovsPtr + 8 * i + 4)
    let data := (mem.drop ptr).take len
    let r := entryWrite e data
    if r.2.1 ≠ 0 then (out ++ r.2.2, .inl r.2.1)
    else fdWriteLoop e iovsPtr (i + 1) rem (acc + r.1) mem (out ++ r.2.2)

/-- Syscall `fd_write(fd, iovsPtr, iovsLen, writtenPtr)`: returns the updated guest
memory, the chunks handed to the output sink, and the errno; throws on a
descriptor that is not open. -/
def fd_write (st : Sys) (mem : Bytes) (fd iovsPtr iovsLen writtenPtr : Nat) :
    Except String (Bytes × List (Nat × Bytes) × Nat) :=
  match lookupFd st.openFds fd with
  | none => .error ("file descriptor " ++ toString fd ++ " is not open")
  | some e =>
    match fdWriteLoop e iovsPtr 0 iovsLen 0 mem [] with
    | (out, .inl code) => .ok (mem, out, code)
    | (out, .inr written) => .ok (setUint32 mem writtenPtr written, out, 0)

/-- Syscall `args_sizes_get(number, sizePtr)`: write the argument count and the total
of byte length plus one terminator per argument. -/
def args_sizes_get (args : List Bytes) (mem : Bytes) (number sizePtr : Nat) :
    Bytes × Nat :=
  let mem1 := setUint32 mem number args.length
  let size := (args.map (fun s => s.length + 1)).foldl (· + ·) 0
  (setUint32 mem1 sizePtr size, 0)

/-- The loop of `args_get`: record the offset, copy the bytes, write the zero
terminator, then advance `ptr` by `args[i].byteLength` (the source really
does not add 1 for the terminator). -/
def argsGetLoop (args : List Bytes) (argv : Nat) (i ptr : Nat) (mem : Bytes) :
    Bytes :=
  match args with
  | [] => mem
  | a :: rest =>
    let mem1 := setUint32 mem (argv + 4 * i) ptr
    let mem2 := (copy a mem1 0 ptr a.length).1
    let mem3 := mem2.set (ptr + a.length) 0
    argsGetLoop rest argv (i + 1) (ptr + a.length) mem3

/-- Syscall `args_get(argv, argv_buf)`. -/
def args_get (args : List Bytes) (mem : Bytes) (argv argvBuf : Nat) :
    Bytes × Nat :=
  (argsGetLoop args argv 0 argvBuf mem, 0)

mutual
/-- Function `openFile(path, fileSystem)` of compiler.ts, with the `nextFd()` /
`openFds[fd] = ...` effects made explicit on `Sys`.  The path splits on `/`
unless it is empty, and the recursion re-joins the remaining segments. -/
def openFile (path : List Char) (node : FSNode Nat) (st : Sys) :
    (Nat × Nat) × Sys :=
  match (if path = [] then [] else splitSlash path), node with
  | [], .directory _ => ((0, IS_A_DIRECTORY), st)
  | [], .file fid =>
    ((st.nextFd, 0),
      ⟨st.files, (st.nextFd, .file fid) :: st.openFds, st.nextFd + 1⟩)
  | _ :: _, .file _ => ((0, NO_SUCH_FILE_OR_DIRECTORY), st)
  | s :: rest, .directory cs => openFileEntries s (joinSlash rest) cs st
/-- The child lookup of `openFile` fused with the recursive call
(`fileSystem.children[splits[0]]`, then recurse on the joined tail). -/
def openFileEntries (name rest : List Char) (cs : FSEntries Nat) (st : Sys) :
    (Nat × Nat) × Sys :=
  match cs with
  | .nil => ((0, NO_SUCH_FILE_OR_DIRECTORY), st)
  | .cons k child cs' =>
    if k = name then openFile rest child st
    else openFileEntries name rest cs' st
end

/-- Outcome of walking a path through the tree, stated the way the spec
describes the resolver: descend one segment at a time, a missing child or
segments left over at a file mean the path does not resolve, an exhausted
path lands on the node itself. -/
inductive Resolution where
  | foundFile (fid : Nat)
  | foundDir
  | notFound
  deriving DecidableEq, Repr

mutual
/-- Pure path resolution (the spec's resolver, no descriptor effects). -/
def resolvePath (path : List Char) (node : FSNode Nat) : Resolution :=
  match (if path = [] then [] else splitSlash path), node with
  | [], .directory _ => .foundDir
  | [], .file fid => .foundFile fid
  | _ :: _, .file _ => .notFound
  | s :: rest, .directory cs => resolveEntries s (joinSlash rest) cs
def resolveEntries (name rest : List Char) (cs : FSEntries Nat) : Resolution :=
  match cs with
  | .nil => .notFound
  | .cons k child cs' =>
    if k = name then resolvePath rest child
    else resolveEntries name rest cs'
end

/-- A content loader whose asynchronous fetch succeeds: path to bytes. -/
abbrev Loader := List Char → Bytes

mutual
/-- Function `loadFileSystem(path, fileSystem)`: invoke the loader of every leaf,
allocate the `createFile` object (cursor 0) on the heap, and return the tree
of heap ids together with the updated heap, the next free id, and the trace
of loader invocations (the path each loader was called with). -/
def loadFS (path : List Char) (node : FSNode Loader)
    (heap : List (Nat × File)) (nextId : Nat) :
    FSNode Nat × List (Nat × File) × Nat × List (List Char) :=
  match node with
  | .file loader =>
    (.file nextId, heap ++ [(nextId, ⟨loader path, 0⟩)], nextId + 1, [path])
  | .directory cs =>
    let r := loadFSEntries path cs heap nextId
    (.directory r.1, r.2)
def loadFSEntries (path : List Char) (cs : FSEntries Loader)
    (heap : List (Nat × File)) (nextId : Nat) :
    FSEntries Nat × List (Nat × File) × Nat × List (List Char) :=
  match cs with
  | .nil => (.nil, heap, nextId, [])
  | .cons name child rest =>
    let c := loadFS (path ++ '/' :: name) child heap nextId
    let r := loadFSEntries path rest c.2.1 c.2.2.1
    (.cons name c.1 r.1, r.2.1, r.2.2.1, c.2.2.2 ++ r.2.2.2)
end

mutual
/-- The path of every leaf of the tree, in traversal order (what a setup that
invokes every loader exactly once must produce as its invocation trace). -/
def leafPaths (path : List Char) (node : FSNode Loader) : List (List Char) :=
  match node with
  | .file _ => [path]
  | .directory cs => leafPathsEntries path cs
def leafPathsEntries (path : List Char) (cs : FSEntries Loader) :
    List (List Char) :=
  match cs with
  | .nil => []
  | .cons name child rest =>
    leafPaths (path ++ '/' :: name) child ++ leafPathsEntries path rest
end

/-- What the guest's `_start` does, abstracted to the events the driver can
observe: writes to the sink, a `proc_exit` call (which throws after invoking
the exit callback), or any other thrown error (a trap). -/
inductive GuestAction where
  | output (fd : Nat) (data : Bytes)
  | procExit (code : Nat)
  | trap (msg : String)
  deriving DecidableEq, Repr

def GuestAction.isOutput : GuestAction → Bool
  | .output _ _ => true
  | _ => false

/-- State of the promise `runWasi` hands out: `none` while pending, then the
first `resolve` wins; plus the chunks already streamed to the sink. -/
structure DriverState where
  resolved : Option (Option Nat)
  out : List (Nat × Bytes)
  deriving DecidableEq, Repr

/-- Calling `resolve(v)` on the promise: only the first call takes effect. -/
def promiseResolve (v : Option Nat) (st : DriverState) : DriverState :=
  match st.resolved with
  | none => { st with resolved := some v }
  | some _ => st

def outputsOf (guest : List GuestAction) : List (Nat × Bytes) :=
  guest.filterMap (fun a =>
    match a with
    | .output fd d => some (fd, d)
    | _ => none)

/-- Run the guest actions in order.  `proc_exit(code)` first invokes the exit
callback (which is the promise's `resolve`) and then throws `EXIT code`; the
`Except.error` result is the exception unwinding out of `startExport()`. -/
def runGuest : List GuestAction → DriverState → DriverState × Except String Unit
  | [], st => (st, .ok ())
  | .output fd d :: rest, st => runGuest rest { st with out := st.out ++ [(fd, d)] }
  | .procExit c :: _, st =>
    (promiseResolve (some c) st, .error ("EXIT " ++ toString c))
  | .trap m :: _, st => (st, .error m)

/-- The promise executor of `runWasi`: missing `memory` or `_start` exports
resolve `undefined` and return; otherwise the entry point runs and a normal
fall-through resolves 0.  There is no try/catch around `startExport()`: an
`Except.error` in the second component is the exception escaping the async
executor (an unhandled rejection), not a rejection of the returned promise. -/
def runWasi (hasMemory hasStart : Bool) (guest : List GuestAction) :
    DriverState × Except String Unit :=
  let st0 : DriverState := ⟨none, []⟩
  if hasMemory = false then (promiseResolve none st0, .ok ())
  else if hasStart = false then (promiseResolve none st0, .ok ())
  else
    match runGuest guest st0 with
    | (st, .ok _) => (promiseResolve (some 0) st, .ok ())
    | (st, .error e) => (st, .error e)

/-! ### Helper lemmas about `List.set` and `getD` -/

theorem getD_set_eq (l : Bytes) (i v : Nat) (h : i < l.length) :
    (l.set i v).getD i 0 = v := by
  induction l generalizing i with
  | nil => simp at h
  | cons a t ih =>
    cases i with
    | zero => rfl
    | succ i => exact ih i (by simpa using h)

theorem getD_set_ne (l : Bytes) (i j v : Nat) (h : i ≠ j) :
    (l.set i v).getD j 0 = l.getD j 0 := by
  induction l generalizing i j with
  | nil => rfl
  | cons a t ih =>
    cases i with
    | zero =>
      cases j with
      | zero => exact absurd rfl h
      | succ j => rfl
    | succ i =>
      cases j with
      | zero => rfl
      | succ j => exact ih i j (by omega)

/-! ### The copy primitive -/

/-- Invariant of the `copy` loop: starting at index `i ≤ m`, where `m` is the
clamped copy count, the loop returns count `m`, preserves the destination
length, writes only inside `[dst + i, dst + m)`, and copies the source bytes
there. -/
theorem copyGo_spec (s : Bytes) (src dst : Nat) :
    ∀ remaining i d,
      i ≤ min (i + remaining) (min (s.length - src) (d.length - dst)) →
      (copyGo s src dst i remaining d).2 =
        min (i + remaining) (min (s.length - src) (d.length - dst)) ∧
      (copyGo s src dst i remaining d).1.length = d.length ∧
      (∀ j, j < dst + i ∨
          dst + min (i + remaining) (min (s.length - src) (d.length - dst)) ≤ j →
        (copyGo s src dst i remaining d).1.getD j 0 = d.getD j 0) ∧
      (∀ j, i ≤ j →
          j < min (i + remaining) (min (s.length - src) (d.length - dst)) →
        (copyGo s src dst i remaining d).1.getD (dst + j) 0 =
          s.getD (src + j) 0) := by
  intro remaining
  induction remaining with
  | zero =>
    intro i d hi
    rw [copyGo]
    refine ⟨by omega, rfl, fun j _ => rfl, fun j h1 h2 => by omega⟩
  | succ rem ih =>
    intro i d hi
    rw [copyGo]
    by_cases hs : s.length ≤ src + i
    · rw [if_pos hs]
      exact ⟨by omega, rfl, fun j _ => rfl, fun j h1 h2 => by omega⟩
    · rw [if_neg hs]
      by_cases hd : d.length ≤ dst + i
      · rw [if_pos hd]
        exact ⟨by omega, rfl, fun j _ => rfl, fun j h1 h2 => by omega⟩
      · rw [if_neg hd]
        set d' := d.set (dst + i) (s.getD (src + i) 0) with hd'
        have hlen' : d'.length = d.length := by simp [hd']
        have hrec := ih (i + 1) d' (by rw [hlen']; omega)
        rw [hlen'] at hrec
        have harith : i + 1 + rem = i + (rem + 1) := by omega
        rw [harith] at hrec
        obtain ⟨hc, hl, hf, hco⟩ := hrec
        refine ⟨hc, hl, ?_, ?_⟩
        · intro j hj
          have hj' : j < dst + (i + 1) ∨
              dst + min (i + (rem + 1)) (min (s.length - src) (d.length - dst)) ≤ j := by
            omega
          rw [hf j hj', hd', getD_set_ne _ _ _ _ (by omega)]
        · intro j h1 h2
          by_cases hji : j = i
          · rw [hji]
            have hstep : (copyGo s src dst (i + 1) rem d').1.getD (dst + i) 0 =
                d'.getD (dst + i) 0 := hf (dst + i) (by omega)
            rw [hstep, hd', getD_set_eq _ _ _ (by omega)]
          · exact hco j (by omega) h2

/-- C8: the byte-copy primitive copies exactly
`min(len, source remaining, destination remaining)` bytes (the `max(0, ...)`
clamp is Nat truncated subtraction here, offsets being non-negative), keeps
the destination length, leaves every byte outside the written window
untouched (it never accesses either buffer out of bounds), copies the source
bytes into the window, and returns the count actually copied. -/
theorem c8_copy_clamped (s d : Bytes) (src dst len : Nat) :
    (copy s d src dst len).2 =
      min len (min (s.length - src) (d.length - dst)) ∧
    (copy s d src dst len).1.length = d.length ∧
    (∀ j, j < dst ∨ dst + min len (min (s.length - src) (d.length - dst)) ≤ j →
      (copy s d src dst len).1.getD j 0 = d.getD j 0) ∧
    (∀ j, j < min len (min (s.length - src) (d.length - dst)) →
      (copy s d src dst len).1.getD (dst + j) 0 = s.getD (src + j) 0) := by
  have h := copyGo_spec s src dst len 0 d (by omega)
  rw [Nat.zero_add] at h
  obtain ⟨hc, hl, hf, hco⟩ := h
  exact ⟨hc, hl, fun j hj => hf j (by omega), fun j hj => hco j (by omega) hj⟩

/-- Witness for C8 at a concrete out-of-range request: copying 10 bytes from
a 3-byte source at offset 1 into a 4-byte destination at offset 2 copies
exactly 2 bytes and leaves the byte before the window untouched. -/
theorem c8_copy_clamped_witness :
    (copy [5, 6, 7] [0, 0, 0, 0] 1 2 10).2 = 2 ∧
    (copy [5, 6, 7] [0, 0, 0, 0] 1 2 10).1.getD 0 0 = 0 ∧
    (copy [5, 6, 7] [0, 0, 0, 0] 1 2 10).1.getD 2 0 = 6 :=
  ⟨(c8_copy_clamped [5, 6, 7] [0, 0, 0, 0] 1 2 10).1.trans (by decide),
    (c8_copy_clamped [5, 6, 7] [0, 0, 0, 0] 1 2 10).2.2.1 0
      (Or.inl (by decide)),
    ((c8_copy_clamped [5, 6, 7] [0, 0, 0, 0] 1 2 10).2.2.2 0
      (by decide)).trans (by decide)⟩

/-! ### fd_read on a regular file descriptor -/

/-- Running `fd_read` with a single iovec on a descriptor bound to loaded file `fid`:
the result is the `copy` from the file content at the cursor, the cursor
advances by the count actually copied, and the count is written at
`readPtr`. -/
theorem fd_read_file_single (st : Sys) (mem : Bytes)
    (fd fid iovsPtr ptr readPtr len : Nat) (f : File)
    (hfd : lookupFd st.openFds fd = some (.file fid))
    (hheap : heapGet st.files fid = some f)
    (hptr : getUint32 mem iovsPtr = ptr)
    (hlen : getUint32 mem (iovsPtr + 4) = len) :
    fd_read st mem fd iovsPtr 1 readPtr =
      .ok (⟨heapSet st.files fid
            ⟨f.data, f.cursor + (copy f.data mem f.cursor ptr len).2⟩,
          st.openFds, st.nextFd⟩,
        setUint32 (copy f.data mem f.cursor ptr len).1 readPtr
          (copy f.data mem f.cursor ptr len).2, 0) := by
  have hloop : fdReadLoop (.file fid) iovsPtr 0 1 0 st mem =
      (⟨heapSet st.files fid
          ⟨f.data, f.cursor + (copy f.data mem f.cursor ptr len).2⟩,
        st.openFds, st.nextFd⟩,
        (copy f.data mem f.cursor ptr len).1,
        .inr (copy f.data mem f.cursor ptr len).2) := by
    show fdReadLoop (.file fid) iovsPtr 0 (0 + 1) 0 st mem = _
    rw [fdReadLoop]
    simp only [Nat.mul_zero, Nat.add_zero, hptr, hlen, entryRead, hheap,
      fileRead]
    by_cases hb : (copy f.data mem f.cursor ptr len).2 < len
    · rw [if_neg (by simp), if_pos hb]
      simp
    · rw [if_neg (by simp), if_neg hb]
      rw [fdReadLoop]
      simp
  simp only [fd_read, hfd, hloop]

/-- C4: reading `N` bytes through an open file descriptor whose remaining
content past the cursor is `M = f.data.length - f.cursor < N` bytes (with the
guest buffer large enough for them) returns exactly `M` bytes, advances the
cursor by `M`, writes the total `M` at the out-pointer and returns errno 0 —
a short read is not an error. -/
theorem c4_short_read_not_error (st : Sys) (mem : Bytes)
    (fd fid iovsPtr ptr readPtr N : Nat) (f : File)
    (hfd : lookupFd st.openFds fd = some (.file fid))
    (hheap : heapGet st.files fid = some f)
    (_hcur : f.cursor ≤ f.data.length)
    (hptr : getUint32 mem iovsPtr = ptr)
    (hlen : getUint32 mem (iovsPtr + 4) = N)
    (hM : f.data.length - f.cursor < N)
    (hroom : ptr + (f.data.length - f.cursor) ≤ mem.length) :
    fd_read st mem fd iovsPtr 1 readPtr =
      .ok (⟨heapSet st.files fid
            ⟨f.data, f.cursor + (f.data.length - f.cursor)⟩,
          st.openFds, st.nextFd⟩,
        setUint32 (copy f.data mem f.cursor ptr N).1 readPtr
          (f.data.length - f.cursor), 0) := by
  have hcount : (copy f.data mem f.cursor ptr N).2 =
      f.data.length - f.cursor := by
    have h := (copyGo_spec f.data f.cursor ptr N 0 mem (by omega)).1
    rw [Nat.zero_add] at h
    rw [copy, h]
    omega
  have h := fd_read_file_single st mem fd fid iovsPtr ptr readPtr N f hfd
    hheap hptr hlen
  rw [hcount] at h
  exact h

/-- Witness for C4: a file with 5 bytes and cursor 3 (2 bytes remaining),
asked for 5 bytes, yields a successful 2-byte read. -/
theorem c4_short_read_not_error_witness :
    fd_read ⟨[(0, ⟨[1, 2, 3, 4, 5], 3⟩)], initialFds ++ [(4, .file 0)], 5⟩
        ([12, 0, 0, 0, 5, 0, 0, 0] ++ List.replicate 8 0) 4 0 1 8 =
      .ok (⟨heapSet [(0, ⟨[1, 2, 3, 4, 5], 3⟩)] 0 ⟨[1, 2, 3, 4, 5], 3 + (5 - 3)⟩,
          initialFds ++ [(4, .file 0)], 5⟩,
        setUint32 (copy [1, 2, 3, 4, 5]
            ([12, 0, 0, 0, 5, 0, 0, 0] ++ List.replicate 8 0) 3 12 5).1 8
          (5 - 3), 0) :=
  c4_short_read_not_error
    ⟨[(0, ⟨[1, 2, 3, 4, 5], 3⟩)], initialFds ++ [(4, .file 0)], 5⟩
    ([12, 0, 0, 0, 5, 0, 0, 0] ++ List.replicate 8 0) 4 0 0 12 8 5
    ⟨[1, 2, 3, 4, 5], 3⟩ (by decide) (by decide) (by decide) (by decide)
    (by decide) (by decide) (by decide)

/-! ### Characterization of openFile by pure path resolution -/

mutual
/-- Function `openFile` is the pure resolver plus the descriptor-table effect: a
failed resolution leaves the state untouched and returns the errno, an
exhausted path on a file allocates `nextFd`, binds it to the file and bumps
the counter. -/
theorem openFile_eq_resolve (path : List Char) (node : FSNode Nat) (st : Sys) :
    openFile path node st =
      (match resolvePath path node with
        | .notFound => ((0, NO_SUCH_FILE_OR_DIRECTORY), st)
        | .foundDir => ((0, IS_A_DIRECTORY), st)
        | .foundFile fid =>
          ((st.nextFd, 0),
            ⟨st.files, (st.nextFd, .file fid) :: st.openFds, st.nextFd + 1⟩)) := by
  rw [openFile.eq_def, resolvePath.eq_def]
  cases hs : (if path = [] then [] else splitSlash path) with
  | nil => cases node <;> rfl
  | cons s rest =>
    cases node with
    | file fid => rfl
    | directory cs => exact openFileEntries_eq_resolve s (joinSlash rest) cs st
theorem openFileEntries_eq_resolve (name rest : List Char) (cs : FSEntries Nat)
    (st : Sys) :
    openFileEntries name rest cs st =
      (match resolveEntries name rest cs with
        | .notFound => ((0, NO_SUCH_FILE_OR_DIRECTORY), st)
        | .foundDir => ((0, IS_A_DIRECTORY), st)
        | .foundFile fid =>
          ((st.nextFd, 0),
            ⟨st.files, (st.nextFd, .file fid) :: st.openFds, st.nextFd + 1⟩)) := by
  cases cs with
  | nil => rfl
  | cons k child cs' =>
    rw [openFileEntries.eq_def, resolveEntries.eq_def]
    dsimp only
    by_cases hk : k = name
    · simp only [if_pos hk]
      exact openFile_eq_resolve rest child st
    · simp only [if_neg hk]
      exact openFileEntries_eq_resolve name rest cs' st
end

/-- C3: opening a slash-delimited path returns errno 44 exactly when the walk
fails (a next segment is missing from the current directory's children, or
the remaining path is non-empty at a file node), errno 31 when the path is
exhausted at a directory, and on a file it allocates the fresh descriptor
`nextFd`, binds it to that file in the table, bumps the counter and returns
errno 0.  `resolvePath` spells out the spec's walk, with "exhausted" meaning
the remaining path string is empty, which is how the source recursion
re-splits the joined tail. -/
theorem c3_path_open_outcomes (path : List Char) (node : FSNode Nat) (st : Sys) :
    (resolvePath path node = .notFound →
      openFile path node st = ((0, NO_SUCH_FILE_OR_DIRECTORY), st)) ∧
    (resolvePath path node = .foundDir →
      openFile path node st = ((0, IS_A_DIRECTORY), st)) ∧
    (∀ fid, resolvePath path node = .foundFile fid →
      openFile path node st =
        ((st.nextFd, 0),
          ⟨st.files, (st.nextFd, .file fid) :: st.openFds, st.nextFd + 1⟩)) := by
  refine ⟨fun h => ?_, fun h => ?_, fun fid h => ?_⟩ <;>
    rw [openFile_eq_resolve, h]

/-- Witness for C3 on the tree `{ f ↦ file 7 }`: a missing name gives 44,
the directory itself gives 31, and the file gives a fresh descriptor 4. -/
theorem c3_path_open_outcomes_witness :
    openFile "g".toList (.directory (.cons "f".toList (.file 7) .nil))
        (initSys []) = ((0, NO_SUCH_FILE_OR_DIRECTORY), initSys []) ∧
    openFile [] (.directory (.cons "f".toList (.file 7) .nil))
        (initSys []) = ((0, IS_A_DIRECTORY), initSys []) ∧
    openFile "f".toList (.directory (.cons "f".toList (.file 7) .nil))
        (initSys []) =
      (((initSys []).nextFd, 0),
        ⟨(initSys []).files, ((initSys []).nextFd, .file 7) :: (initSys []).openFds,
          (initSys []).nextFd + 1⟩) :=
  ⟨(c3_path_open_outcomes "g".toList
      (.directory (.cons "f".toList (.file 7) .nil)) (initSys [])).1 rfl,
    (c3_path_open_outcomes []
      (.directory (.cons "f".toList (.file 7) .nil)) (initSys [])).2.1 rfl,
    (c3_path_open_outcomes "f".toList
      (.directory (.cons "f".toList (.file 7) .nil)) (initSys [])).2.2 7 rfl⟩

/-! ### Split / join lemmas -/

theorem splitSlash_ne_nil (p : List Char) : splitSlash p ≠ [] := by
  induction p with
  | nil => simp [splitSlash]
  | cons c rest ih =>
    rw [splitSlash]
    by_cases hc : c = '/'
    · simp [hc]
    · rw [if_neg hc]
      cases h : splitSlash rest <;> simp

theorem splitSlash_append_slash (p q : List Char) :
    splitSlash (p ++ '/' :: q) = splitSlash p ++ splitSlash q := by
  induction p with
  | nil => simp [splitSlash]
  | cons c rest ih =>
    by_cases hc : c = '/'
    · subst hc
      rw [List.cons_append, splitSlash, if_pos rfl, ih, splitSlash, if_pos rfl,
        List.cons_append]
    · rw [List.cons_append, splitSlash, if_neg hc, ih]
      rw [splitSlash, if_neg hc]
      cases h : splitSlash rest with
      | nil => exact absurd h (splitSlash_ne_nil rest)
      | cons s ss => simp

theorem joinSlash_splitSlash (p : List Char) :
    joinSlash (splitSlash p) = p := by
  induction p with
  | nil => rfl
  | cons c rest ih =>
    by_cases hc : c = '/'
    · subst hc
      rw [splitSlash, if_pos rfl]
      cases h : splitSlash rest with
      | nil => exact absurd h (splitSlash_ne_nil rest)
      | cons s ss =>
        rw [h] at ih
        rw [joinSlash, List.nil_append, ih]
    · rw [splitSlash, if_neg hc]
      cases h : splitSlash rest with
      | nil => exact absurd h (splitSlash_ne_nil rest)
      | cons s ss =>
        rw [h] at ih
        cases ss with
        | nil => rw [joinSlash] at ih ⊢; rw [ih]
        | cons s2 ss2 =>
          rw [joinSlash] at ih ⊢
          rw [List.cons_append, ih]

theorem joinSlash_append (xs ys : List (List Char)) (hx : xs ≠ [])
    (hy : ys ≠ []) :
    joinSlash (xs ++ ys) = joinSlash xs ++ '/' :: joinSlash ys := by
  induction xs with
  | nil => exact absurd rfl hx
  | cons x xs' ih =>
    cases xs' with
    | nil =>
      cases ys with
      | nil => exact absurd rfl hy
      | cons y ys' => rfl
    | cons x2 xs2 =>
      have ihh := ih (by simp)
      calc joinSlash ((x :: x2 :: xs2) ++ ys)
          = x ++ '/' :: joinSlash ((x2 :: xs2) ++ ys) := by rfl
        _ = x ++ '/' :: (joinSlash (x2 :: xs2) ++ '/' :: joinSlash ys) := by
            rw [ihh]
        _ = joinSlash (x :: x2 :: xs2) ++ '/' :: joinSlash ys := by
            rw [joinSlash]; simp

theorem splitSlash_no_slash (p : List Char) :
    ∀ s ∈ splitSlash p, '/' ∉ s := by
  induction p with
  | nil => intro s hs; simp [splitSlash] at hs; simp [hs]
  | cons c rest ih =>
    intro s hs
    rw [splitSlash] at hs
    by_cases hc : c = '/'
    · rw [if_pos hc] at hs
      rcases List.mem_cons.1 hs with h | h
      · simp [h]
      · exact ih s h
    · rw [if_neg hc] at hs
      cases h : splitSlash rest with
      | nil => exact absurd h (splitSlash_ne_nil rest)
      | cons t ts =>
        rw [h] at hs
        rcases List.mem_cons.1 hs with h2 | h2
        · subst h2
          intro hmem
          rcases List.mem_cons.1 hmem with h3 | h3
          · exact hc h3.symm
          · exact ih t (by rw [h]; exact List.mem_cons_self t ts) h3
        · exact ih s (by rw [h]; exact List.mem_cons_of_mem t h2)

theorem splitSlash_of_no_slash (s : List Char) (h : '/' ∉ s) :
    splitSlash s = [s] := by
  induction s with
  | nil => rfl
  | cons c rest ih =>
    have hc : c ≠ '/' := fun hcc => h (by rw [hcc]; exact List.mem_cons_self _ _)
    rw [splitSlash, if_neg hc, ih (fun hm => h (List.mem_cons_of_mem c hm))]

theorem splitSlash_joinSlash (xs : List (List Char)) (hx : xs ≠ [])
    (hns : ∀ s ∈ xs, '/' ∉ s) :
    splitSlash (joinSlash xs) = xs := by
  induction xs with
  | nil => exact absurd rfl hx
  | cons x xs' ih =>
    cases xs' with
    | nil =>
      rw [joinSlash]
      exact splitSlash_of_no_slash x (hns x (List.mem_cons_self _ _))
    | cons x2 xs2 =>
      rw [joinSlash, splitSlash_append_slash,
        splitSlash_of_no_slash x (hns x (List.mem_cons_self _ _)),
        ih (by simp) (fun s hs => hns s (List.mem_cons_of_mem x hs))]
      rfl

theorem joinSlash_ne_nil (xs : List (List Char)) (hx : xs ≠ [])
    (hlast : xs.getLast? ≠ some []) : joinSlash xs ≠ [] := by
  induction xs with
  | nil => exact absurd rfl hx
  | cons x xs' ih =>
    cases xs' with
    | nil =>
      rw [joinSlash]
      intro hxe
      exact hlast (by simp [hxe, List.getLast?])
    | cons x2 xs2 => rw [joinSlash]; simp

theorem splitSlash_getLast_ne_nil (p : List Char) (hp : p ≠ [])
    (hl : p.getLast? ≠ some '/') : (splitSlash p).getLast? ≠ some [] := by
  induction p with
  | nil => exact absurd rfl hp
  | cons c rest ih =>
    by_cases hrne : rest = []
    · subst hrne
      have hc : c ≠ '/' := by simpa [List.getLast?] using hl
      rw [splitSlash, if_neg hc]
      simp [splitSlash]
    · have hl' : rest.getLast? ≠ some '/' := by
        cases rest with
        | nil => exact absurd rfl hrne
        | cons r2 rs => rwa [List.getLast?_cons_cons] at hl
      have ihr := ih hrne hl'
      rw [splitSlash]
      by_cases hc : c = '/'
      · rw [if_pos hc]
        cases h : splitSlash rest with
        | nil => exact absurd h (splitSlash_ne_nil rest)
        | cons s ss =>
          rw [List.getLast?_cons_cons]
          rw [h] at ihr
          exact ihr
      · rw [if_neg hc]
        cases h : splitSlash rest with
        | nil => exact absurd h (splitSlash_ne_nil rest)
        | cons s ss =>
          rw [h] at ihr
          cases ss with
          | nil => simp
          | cons s2 ss2 =>
            rw [List.getLast?_cons_cons]
            rwa [List.getLast?_cons_cons] at ihr

/-! ### Extending a path that resolves to a file -/

theorem resolvePath_nil_file (fid : Nat) :
    resolvePath [] (.file fid) = .foundFile fid := rfl

theorem resolvePath_file_notFound (q : List Char) (fid : Nat) (hq : q ≠ []) :
    resolvePath q (.file fid) = .notFound := by
  rw [resolvePath.eq_def, if_neg hq]
  cases h : splitSlash q with
  | nil => exact absurd h (splitSlash_ne_nil q)
  | cons s rest => rfl

mutual
/-- Appending `'/' :: q` to a path `p` that resolves to a file (and does not
itself end in a slash) continues the walk at that file with path `q`. -/
theorem resolvePath_extend (p q : List Char) (node : FSNode Nat) (fid : Nat)
    (hp : p ≠ []) (hlast : (splitSlash p).getLast? ≠ some [])
    (hres : resolvePath p node = .foundFile fid) :
    resolvePath (p ++ '/' :: q) node = resolvePath q (.file fid) := by
  rw [resolvePath.eq_def, if_neg hp] at hres
  cases h : splitSlash p with
  | nil => exact absurd h (splitSlash_ne_nil p)
  | cons s restp =>
    rw [h] at hres
    cases node with
    | file fid2 =>
      dsimp only at hres
      exact Resolution.noConfusion hres
    | directory cs =>
      dsimp only at hres
      rw [resolvePath.eq_def, if_neg (by simp : ¬p ++ '/' :: q = []),
        splitSlash_append_slash, h]
      dsimp only [List.cons_append]
      refine resolveEntries_extend restp q cs s fid ?_ ?_ ?_
      · intro s2 hs2
        exact splitSlash_no_slash p s2
          (by rw [h]; exact List.mem_cons_of_mem s hs2)
      · by_cases hre : restp = []
        · exact Or.inl hre
        · refine Or.inr ?_
          have hcons : (s :: restp).getLast? = restp.getLast? := by
            cases restp with
            | nil => exact absurd rfl hre
            | cons a b => rw [List.getLast?_cons_cons]
          rw [h] at hlast
          rwa [hcons] at hlast
      · exact hres
theorem resolveEntries_extend (restp : List (List Char)) (q : List Char)
    (cs : FSEntries Nat) (name : List Char) (fid : Nat)
    (hns : ∀ s ∈ restp, '/' ∉ s)
    (hlast : restp = [] ∨ restp.getLast? ≠ some [])
    (hres : resolveEntries name (joinSlash restp) cs = .foundFile fid) :
    resolveEntries name (joinSlash (restp ++ splitSlash q)) cs =
      resolvePath q (.file fid) := by
  cases cs with
  | nil =>
    rw [resolveEntries.eq_def] at hres
    dsimp only at hres
    exact Resolution.noConfusion hres
  | cons k child cs2 =>
    rw [resolveEntries.eq_def] at hres
    dsimp only at hres
    rw [resolveEntries.eq_def]
    dsimp only
    by_cases hk : k = name
    · rw [if_pos hk] at hres ⊢
      by_cases hre : restp = []
      · subst hre
        cases child with
        | directory cs3 =>
          rw [resolvePath.eq_def,
            if_pos (show joinSlash [] = [] from rfl)] at hres
          dsimp only at hres
          exact Resolution.noConfusion hres
        | file fid2 =>
          have hfid : fid2 = fid := by
            rw [resolvePath.eq_def,
              if_pos (show joinSlash [] = [] from rfl)] at hres
            dsimp only at hres
            exact Resolution.foundFile.inj hres
          subst hfid
          rw [List.nil_append]
          show resolvePath (joinSlash (splitSlash q)) (.file fid2) =
            resolvePath q (.file fid2)
          rw [joinSlash_splitSlash]
      · have hlast2 : restp.getLast? ≠ some [] := by
          rcases hlast with hre2 | hl2
          · exact absurd hre2 hre
          · exact hl2
        have hjoin_ne : joinSlash restp ≠ [] :=
          joinSlash_ne_nil restp hre hlast2
        have hsplit_join : splitSlash (joinSlash restp) = restp :=
          splitSlash_joinSlash restp hre hns
        have hrw : joinSlash (restp ++ splitSlash q) =
            joinSlash restp ++ '/' :: q := by
          rw [joinSlash_append restp (splitSlash q) hre (splitSlash_ne_nil q),
            joinSlash_splitSlash]
        rw [hrw]
        exact resolvePath_extend (joinSlash restp) q child fid hjoin_ne
          (by rw [hsplit_join]; exact hlast2) hres
    · rw [if_neg hk] at hres ⊢
      exact resolveEntries_extend restp q cs2 name fid hns hlast hres
end

/-- C10: for a file reachable at a slash-delimited path `p` (not itself
ending in a slash), opening `p` with one extra trailing slash still opens the
file with errno 0 — the lone trailing empty segment makes the remaining path
the empty string, which splits into zero segments and counts as exhausted —
while extending `p` by any non-empty segment fails with errno 44, and opening
the empty string against the root directory returns errno 31. -/
theorem c10_trailing_slash_cases (p : List Char) (node : FSNode Nat) (st : Sys)
    (fid : Nat) :
    (p ≠ [] → p.getLast? ≠ some '/' → resolvePath p node = .foundFile fid →
      openFile (p ++ ['/']) node st =
        ((st.nextFd, 0),
          ⟨st.files, (st.nextFd, .file fid) :: st.openFds, st.nextFd + 1⟩)) ∧
    (∀ seg, seg ≠ [] → p ≠ [] → p.getLast? ≠ some '/' →
      resolvePath p node = .foundFile fid →
      openFile (p ++ '/' :: seg) node st =
        ((0, NO_SUCH_FILE_OR_DIRECTORY), st)) ∧
    (∀ cs, openFile [] (FSNode.directory cs) st = ((0, IS_A_DIRECTORY), st)) := by
  refine ⟨fun hp hl hres => ?_, fun seg hseg hp hl hres => ?_, fun cs => rfl⟩
  · have hext := resolvePath_extend p [] node fid hp
      (splitSlash_getLast_ne_nil p hp hl) hres
    rw [openFile_eq_resolve, hext, resolvePath_nil_file]
  · have hext := resolvePath_extend p seg node fid hp
      (splitSlash_getLast_ne_nil p hp hl) hres
    rw [openFile_eq_resolve, hext, resolvePath_file_notFound seg fid hseg]

/-- Witness for C10 on `{ f ↦ file 7 }`: opening "f/" succeeds with the fresh
descriptor, "f/x" fails with 44, "" fails with 31. -/
theorem c10_trailing_slash_cases_witness :
    openFile ("f".toList ++ ['/'])
        (.directory (.cons "f".toList (.file 7) .nil)) (initSys []) =
      (((initSys []).nextFd, 0),
        ⟨(initSys []).files,
          ((initSys []).nextFd, .file 7) :: (initSys []).openFds,
          (initSys []).nextFd + 1⟩) ∧
    openFile ("f".toList ++ '/' :: "x".toList)
        (.directory (.cons "f".toList (.file 7) .nil)) (initSys []) =
      ((0, NO_SUCH_FILE_OR_DIRECTORY), initSys []) ∧
    openFile [] (FSNode.directory (.cons "f".toList (.file 7) .nil))
        (initSys []) = ((0, IS_A_DIRECTORY), initSys []) :=
  ⟨(c10_trailing_slash_cases "f".toList
      (.directory (.cons "f".toList (.file 7) .nil)) (initSys []) 7).1
      (by decide) (by decide) rfl,
    (c10_trailing_slash_cases "f".toList
      (.directory (.cons "f".toList (.file 7) .nil)) (initSys []) 7).2.1
      "x".toList (by decide) (by decide) (by decide) rfl,
    (c10_trailing_slash_cases "f".toList
      (.directory (.cons "f".toList (.file 7) .nil)) (initSys []) 7).2.2
      (.cons "f".toList (.file 7) .nil)⟩

/-! ### Claim C2: the read cursor across descriptors on the same file -/

/-- Tree with a single 3-byte file `f` = [10, 20, 30] at heap id 0. -/
def c2Tree : FSNode Nat := .directory (.cons "f".toList (.file 0) .nil)

def c2Sys : Sys := initSys [(0, ⟨[10, 20, 30], 0⟩)]

/-- Guest memory: one iovec at offset 0 pointing at buffer 16 with length 2;
the read total goes to offset 8. -/
def c2Mem : Bytes := [16, 0, 0, 0, 2, 0, 0, 0] ++ List.replicate 12 0

/-- Open `f`, read 2 bytes through the new descriptor, open `f` again, read
through the second descriptor; return the second open's (fd, errno) and the
first byte the second read put into the guest buffer. -/
def c2Run : (Nat × Nat) × Nat :=
  let s1 := openFile "f".toList c2Tree c2Sys
  match fd_read s1.2 c2Mem s1.1.1 0 1 8 with
  | .error _ => ((99, 99), 99)
  | .ok (st2, mem1, _) =>
    let s3 := openFile "f".toList c2Tree st2
    match fd_read s3.2 mem1 s3.1.1 0 1 8 with
    | .error _ => ((99, 99), 99)
    | .ok (_, mem2, _) => (s3.1, mem2.getD 16 99)

/-- C2 fails on the code: the second `path_open` of the same file succeeds
with a fresh descriptor 5, but the first read through that new descriptor
yields byte 30 — offset 2 of the content — because both descriptors alias
the one `createFile` object and hence one cursor, already advanced by the
read through the first descriptor.  The claim demands byte 10 (offset 0). -/
theorem c2_counterexample_shared_cursor :
    c2Run = ((5, 0), 30) ∧ c2Run.2 ≠ 10 := by
  constructor
  · rfl
  · intro h
    rw [show c2Run.2 = 30 from rfl] at h
    omega

/-- C2 amended: the cursor starts at 0 when the file is loaded (not when a
descriptor is opened), and all descriptors on one file share it; hence the
first read through a fresh descriptor starts at offset 0 exactly when no read
has yet happened on that file through any descriptor (shared cursor still 0):
then `fd_read` copies `copy data mem 0 ptr N` — bytes from offset 0. -/
theorem c2_fresh_descriptor_reads_from_zero (p : List Char)
    (node : FSNode Nat) (st : Sys) (mem : Bytes)
    (fid iovsPtr ptr readPtr N : Nat) (data : Bytes)
    (hres : resolvePath p node = .foundFile fid)
    (hheap : heapGet st.files fid = some ⟨data, 0⟩)
    (hptr : getUint32 mem iovsPtr = ptr)
    (hlen : getUint32 mem (iovsPtr + 4) = N) :
    (openFile p node st).1 = (st.nextFd, 0) ∧
    fd_read (openFile p node st).2 mem st.nextFd iovsPtr 1 readPtr =
      .ok (⟨heapSet st.files fid ⟨data, 0 + (copy data mem 0 ptr N).2⟩,
          (st.nextFd, .file fid) :: st.openFds, st.nextFd + 1⟩,
        setUint32 (copy data mem 0 ptr N).1 readPtr
          (copy data mem 0 ptr N).2, 0) := by
  have hopen := openFile_eq_resolve p node st
  rw [hres] at hopen
  rw [hopen]
  refine ⟨rfl, ?_⟩
  have hsingle := fd_read_file_single
    ⟨st.files, (st.nextFd, .file fid) :: st.openFds, st.nextFd + 1⟩ mem
    st.nextFd fid iovsPtr ptr readPtr N ⟨data, 0⟩
    (by rw [lookupFd, if_pos rfl]) hheap hptr hlen
  exact hsingle

/-- Witness for the amended C2: a freshly loaded file (cursor 0) read through
the descriptor its first open allocates really yields bytes from offset 0. -/
theorem c2_fresh_descriptor_reads_from_zero_witness :
    (openFile "f".toList c2Tree c2Sys).1 = (c2Sys.nextFd, 0) ∧
    fd_read (openFile "f".toList c2Tree c2Sys).2 c2Mem c2Sys.nextFd 0 1 8 =
      .ok (⟨heapSet c2Sys.files 0 ⟨[10, 20, 30], 0 + (copy [10, 20, 30] c2Mem 0 16 2).2⟩,
          (c2Sys.nextFd, .file 0) :: c2Sys.openFds, c2Sys.nextFd + 1⟩,
        setUint32 (copy [10, 20, 30] c2Mem 0 16 2).1 8
          (copy [10, 20, 30] c2Mem 0 16 2).2, 0) :=
  c2_fresh_descriptor_reads_from_zero "f".toList c2Tree c2Sys c2Mem 0 0 16 8 2
    [10, 20, 30] rfl (by decide) (by decide) (by decide)

/-! ### Claim C7: read/write on a descriptor that was never opened -/

/-- C7: `fd_read` and `fd_write` on a descriptor number absent from the
table throw (`Except.error`, the host exception aborting the run) instead of
returning a WASI errno; the thrown branch produces no updated guest memory at
all, so nothing is written. -/
theorem c7_closed_fd_fatal (st : Sys) (mem : Bytes)
    (fd iovsPtr iovsLen outPtr : Nat)
    (h : lookupFd st.openFds fd = none) :
    fd_read st mem fd iovsPtr iovsLen outPtr =
      .error ("file descriptor " ++ toString fd ++ " is not open") ∧
    fd_write st mem fd iovsPtr iovsLen outPtr =
      .error ("file descriptor " ++ toString fd ++ " is not open") := by
  constructor
  · simp only [fd_read, h]
  · simp only [fd_write, h]

/-- Witness for C7: descriptor 99 was never opened in the initial table. -/
theorem c7_closed_fd_fatal_witness :
    fd_read (initSys []) [] 99 0 0 0 =
      .error ("file descriptor " ++ toString 99 ++ " is not open") ∧
    fd_write (initSys []) [] 99 0 0 0 =
      .error ("file descriptor " ++ toString 99 ++ " is not open") :=
  c7_closed_fd_fatal (initSys []) [] 99 0 0 0 (by decide)

/-! ### Claim C1: args_get vs args_sizes_get -/

/-- The spec's example argument vector ["a.wasm", "x", "yz"] as byte
strings. -/
def c1Args : List Bytes := [[97, 46, 119, 97, 115, 109], [120], [121, 122]]

/-- Guest memory of 64 bytes filled with 255 so that missing zero terminators
are visible. -/
def c1Mem : Bytes := List.replicate 64 255

/-- C1 fails on the code: `args_sizes_get` reports 12 = (6+1)+(1+1)+(2+1),
but `args_get` advances its buffer pointer by `byteLength` only — the `+ 1`
for the terminator is missing — so the recorded offsets are 0, 6, 7 instead
of 0, 7, 9, each terminator except the last is overwritten by the next
argument (byte 6 is 120 = 'x', not 0), and only bytes 0..9 of the buffer are
used (bytes 10, 11 keep the 255 filler), not the reported 12. -/
theorem c1_args_get_missing_terminators :
    getUint32 (args_sizes_get c1Args c1Mem 40 44).1 44 = 12 ∧
    (args_sizes_get c1Args c1Mem 40 44).2 = 0 ∧
    (args_get c1Args c1Mem 48 0).2 = 0 ∧
    getUint32 (args_get c1Args c1Mem 48 0).1 48 = 0 ∧
    getUint32 (args_get c1Args c1Mem 48 0).1 52 = 6 ∧
    getUint32 (args_get c1Args c1Mem 48 0).1 56 = 7 ∧
    (args_get c1Args c1Mem 48 0).1.take 12 =
      [97, 46, 119, 97, 115, 109, 120, 121, 122, 0, 255, 255] := by
  refine ⟨by decide, rfl, rfl, by decide, by decide, by decide, by decide⟩

/-! ### Claims C5 and C6: the execution driver -/

/-- Output-only guest actions just append their chunks to the sink log. -/
theorem runGuest_outputs_append (pre rest : List GuestAction)
    (st : DriverState) (hpre : ∀ a ∈ pre, a.isOutput = true) :
    runGuest (pre ++ rest) st =
      runGuest rest ⟨st.resolved, st.out ++ outputsOf pre⟩ := by
  induction pre generalizing st with
  | nil => simp [outputsOf]
  | cons a pre' ih =>
    cases a with
    | output fd d =>
      rw [List.cons_append, runGuest,
        ih _ (fun x hx => hpre x (List.mem_cons_of_mem _ hx))]
      simp [outputsOf]
    | procExit c =>
      have := hpre _ (List.mem_cons_self _ _)
      simp [GuestAction.isOutput] at this
    | trap m =>
      have := hpre _ (List.mem_cons_self _ _)
      simp [GuestAction.isOutput] at this

/-- The claim as stated is false: at the concrete guest `[proc_exit 42]` the
promise does resolve with 42 (the exit callback ran before the throw), but
the abrupt unwind is NOT caught by the driver — `runWasi` has no try/catch,
so the `EXIT 42` exception escapes the promise executor (an unhandled
rejection) instead of being treated at the call boundary. -/
theorem c5_counterexample_unwind_not_caught :
    runWasi true true [.procExit 42] =
      (⟨some (some 42), []⟩, .error ("EXIT " ++ toString 42)) ∧
    (runWasi true true [.procExit 42]).2 ≠ .ok () := by
  refine ⟨rfl, fun h => ?_⟩
  rw [show (runWasi true true [.procExit 42]).2 =
    Except.error ("EXIT " ++ toString 42) from rfl] at h
  exact Except.noConfusion h

/-- C5 amended: when the guest calls `proc_exit(c)`, the run's promise
resolves with exit code `c` (the completion callback fires before the throw)
and no further guest code executes (the sink log is that of the actions
before the exit only); but the unwind is not caught by the driver — it
escapes the executor as an uncaught exception, the promise nevertheless
reporting `c` to the caller rather than a crash. -/
theorem c5_proc_exit_resolves_code (c : Nat) (pre post : List GuestAction)
    (hpre : ∀ a ∈ pre, a.isOutput = true) :
    runWasi true true (pre ++ .procExit c :: post) =
      (⟨some (some c), outputsOf pre⟩, .error ("EXIT " ++ toString c)) := by
  rw [runWasi]
  rw [if_neg (by simp), if_neg (by simp)]
  rw [runGuest_outputs_append pre (.procExit c :: post) ⟨none, []⟩ hpre]
  rw [runGuest]
  simp [promiseResolve]

/-- Witness for C5: two output chunks before `proc_exit 42`, one after. -/
theorem c5_proc_exit_resolves_code_witness :
    runWasi true true
        ([.output 1 [65], .output 2 [66]] ++ .procExit 42 :: [.output 1 [67]]) =
      (⟨some (some 42), outputsOf [.output 1 [65], .output 2 [66]]⟩,
        .error ("EXIT " ++ toString 42)) :=
  c5_proc_exit_resolves_code 42 [.output 1 [65], .output 2 [66]]
    [.output 1 [67]] (by decide)

/-- C6: a missing `memory` export or a missing `_start` export makes the run
resolve with `undefined` (`some none`: resolved, no code) and no exception
leaves the executor; and when the entry point returns normally (only output
actions, no `proc_exit`), the run resolves with exit code 0. -/
theorem c6_driver_undefined_or_zero :
    (∀ hs guest, runWasi false hs guest = (⟨some none, []⟩, .ok ())) ∧
    (∀ guest, runWasi true false guest = (⟨some none, []⟩, .ok ())) ∧
    (∀ guest, (∀ a ∈ guest, a.isOutput = true) →
      runWasi true true guest = (⟨some (some 0), outputsOf guest⟩, .ok ())) := by
  refine ⟨fun hs guest => rfl, fun guest => rfl, fun guest hg => ?_⟩
  rw [runWasi]
  rw [if_neg (by simp), if_neg (by simp)]
  have h := runGuest_outputs_append guest [] ⟨none, []⟩ hg
  rw [List.append_nil] at h
  rw [h, runGuest]
  simp [promiseResolve]

/-- Witness for C6 at concrete guests for all three branches. -/
theorem c6_driver_undefined_or_zero_witness :
    runWasi false true [.procExit 7] = (⟨some none, []⟩, .ok ()) ∧
    runWasi true false [.procExit 7] = (⟨some none, []⟩, .ok ()) ∧
    runWasi true true [.output 1 [65]] =
      (⟨some (some 0), outputsOf [.output 1 [65]]⟩, .ok ()) :=
  ⟨c6_driver_undefined_or_zero.1 true [.procExit 7],
    c6_driver_undefined_or_zero.2.1 [.procExit 7],
    c6_driver_undefined_or_zero.2.2 [.output 1 [65]] (by decide)⟩

/-! ### Claim C9: loaders run once at setup; execution reads loaded buffers -/

mutual
/-- The loader-invocation trace of setup is exactly one invocation per leaf,
at that leaf's path. -/
theorem loadFS_trace (path : List Char) (node : FSNode Loader)
    (heap : List (Nat × File)) (n : Nat) :
    (loadFS path node heap n).2.2.2 = leafPaths path node := by
  cases node with
  | file loader => rfl
  | directory cs => exact loadFSEntries_trace path cs heap n
theorem loadFSEntries_trace (path : List Char) (cs : FSEntries Loader)
    (heap : List (Nat × File)) (n : Nat) :
    (loadFSEntries path cs heap n).2.2.2 = leafPathsEntries path cs := by
  cases cs with
  | nil => rfl
  | cons name child rest =>
    show (loadFS (path ++ '/' :: name) child heap n).2.2.2 ++
        (loadFSEntries path rest (loadFS (path ++ '/' :: name) child heap n).2.1
          (loadFS (path ++ '/' :: name) child heap n).2.2.1).2.2.2 =
      leafPaths (path ++ '/' :: name) child ++ leafPathsEntries path rest
    rw [loadFS_trace, loadFSEntries_trace]
end

/-- Syscall `path_open` never touches the loaded-file heap: it only rebinds
descriptors. -/
theorem openFile_files_preserved (p : List Char) (node : FSNode Nat)
    (st : Sys) : ((openFile p node st).2).files = st.files := by
  rw [openFile_eq_resolve]
  cases resolvePath p node <;> rfl

theorem heapData_heapSet (files : List (Nat × File)) (fid : Nat) (f : File)
    (c : Nat) (h : heapGet files fid = some f) :
    heapData (heapSet files fid ⟨f.data, c⟩) = heapData files := by
  induction files with
  | nil => rfl
  | cons p rest ih =>
    obtain ⟨k, g⟩ := p
    rw [heapGet] at h
    rw [heapSet]
    by_cases hk : k = fid
    · rw [if_pos hk] at h ⊢
      have hg : g = f := by injection h
      subst hg
      rfl
    · rw [if_neg hk] at h ⊢
      show (k, g.data) :: heapData (heapSet rest fid ⟨f.data, c⟩) =
        (k, g.data) :: heapData rest
      rw [ih h]

theorem entryRead_heapData (st : Sys) (e : FdEntry) (mem : Bytes)
    (ptr len : Nat) :
    heapData (entryRead st e mem ptr len).1.files = heapData st.files := by
  cases e with
  | file fid =>
    rw [entryRead]
    cases hg : heapGet st.files fid with
    | none => rfl
    | some f => exact heapData_heapSet st.files fid f _ hg
  | stdin => rfl
  | stdout => rfl
  | stderr => rfl
  | preopenRoot => rfl

theorem fdReadLoop_heapData (e : FdEntry) (iovsPtr : Nat) :
    ∀ remaining i acc st mem,
      heapData (fdReadLoop e iovsPtr i remaining acc st mem).1.files =
        heapData st.files := by
  intro remaining
  induction remaining with
  | zero => intro i acc st mem; rfl
  | succ rem ih =>
    intro i acc st mem
    rw [fdReadLoop]
    split
    · exact entryRead_heapData st e mem _ _
    · split
      · exact entryRead_heapData st e mem _ _
      · rw [ih]
        exact entryRead_heapData st e mem _ _

theorem fd_read_heapData (st : Sys) (mem : Bytes)
    (fd iovsPtr iovsLen readPtr : Nat) (st2 : Sys) (mem2 : Bytes) (errno : Nat)
    (h : fd_read st mem fd iovsPtr iovsLen readPtr = .ok (st2, mem2, errno)) :
    heapData st2.files = heapData st.files := by
  rw [fd_read] at h
  cases hl : lookupFd st.openFds fd with
  | none => rw [hl] at h; exact Except.noConfusion h
  | some e =>
    rw [hl] at h
    dsimp only at h
    cases hr : fdReadLoop e iovsPtr 0 iovsLen 0 st mem with
    | mk st' rest =>
      obtain ⟨mem', s⟩ := rest
      have hpre : (fdReadLoop e iovsPtr 0 iovsLen 0 st mem).1 = st' := by
        rw [hr]
      cases s with
      | inl code =>
        rw [hr] at h
        dsimp only at h
        have hst : st2 = st' := ((congrArg Prod.fst (Except.ok.inj h)).symm :
          st2 = st')
        rw [hst, ← hpre]
        exact fdReadLoop_heapData e iovsPtr iovsLen 0 0 st mem
      | inr read =>
        rw [hr] at h
        dsimp only at h
        have hst : st2 = st' := ((congrArg Prod.fst (Except.ok.inj h)).symm :
          st2 = st')
        rw [hst, ← hpre]
        exact fdReadLoop_heapData e iovsPtr iovsLen 0 0 st mem

/-- C9: setup invokes each leaf's loader exactly once (the invocation trace
of `loadFileSystem` is precisely the list of leaf paths), and it is the only
loader-invoking function — the system calls are defined over the loaded tree
and heap, so execution cannot invoke a loader: `path_open` leaves the heap
untouched and a successful `fd_read` preserves every file's content (only
cursors move), i.e. repeated opens of a path are served from the buffers
loaded at setup. -/
theorem c9_loaders_once_then_buffers_only :
    (∀ path node heap n, (loadFS path node heap n).2.2.2 = leafPaths path node) ∧
    (∀ p node st, ((openFile p node st).2).files = st.files) ∧
    (∀ st mem fd iovsPtr iovsLen readPtr st2 mem2 errno,
      fd_read st mem fd iovsPtr iovsLen readPtr = .ok (st2, mem2, errno) →
      heapData st2.files = heapData st.files) :=
  ⟨loadFS_trace, openFile_files_preserved, fd_read_heapData⟩

/-- The witness tree `{ a ↦ file, d ↦ { b ↦ file } }`. -/
def c9Tree : FSNode Loader :=
  .directory (.cons "a".toList (.file (fun _ => [1]))
    (.cons "d".toList (.directory (.cons "b".toList (.file (fun _ => [2])) .nil))
      .nil))

/-- Witness for C9: the trace on a concrete two-leaf tree, and a concrete
successful read whose only effect on the heap is the cursor. -/
theorem c9_loaders_once_then_buffers_only_witness :
    (loadFS ".".toList c9Tree [] 0).2.2.2 = leafPaths ".".toList c9Tree ∧
    heapData (⟨[(0, ⟨[1, 2], 2⟩)], initialFds ++ [(4, FdEntry.file 0)], 5⟩ : Sys).files =
      heapData (⟨[(0, ⟨[1, 2], 0⟩)], initialFds ++ [(4, FdEntry.file 0)], 5⟩ : Sys).files :=
  ⟨c9_loaders_once_then_buffers_only.1 ".".toList c9Tree [] 0,
    c9_loaders_once_then_buffers_only.2.2
      ⟨[(0, ⟨[1, 2], 0⟩)], initialFds ++ [(4, FdEntry.file 0)], 5⟩
      ([12, 0, 0, 0, 2, 0, 0, 0] ++ List.replicate 6 0) 4 0 1 8
      ⟨[(0, ⟨[1, 2], 2⟩)], initialFds ++ [(4, FdEntry.file 0)], 5⟩
      [12, 0, 0, 0, 2, 0, 0, 0, 2, 0, 0, 0, 1, 2] 0 (by rfl)⟩

end TryWatim
